import Mathlib

/-!
Verification of the binGraph binary statistical analysis engine
(`exeGraph_mpl.py`): Shannon entropy of byte multisets, chunked whole-file
entropy sampling, per-section block entropy profiling, byte histograms and
tracked-byte-group percentages.

Bytes are modelled as natural numbers (the byte-valued hypotheses carry an
explicit `< 256` bound), Python floats as real numbers, and file streams as
`List ℕ`.  Functions that raise in Python (division by zero when a chunk or
block count of 0 is supplied) return `Option`.
-/

open scoped BigOperators

/-- `shannon_ent(labels, base=256)`: `np.unique` yields the distinct values
with their counts, `norm_counts = counts / counts.sum()`, and the result is
`-(norm_counts * log(norm_counts)/log(base)).sum()`.  The distinct values of
the list are `l.toFinset`, each with multiplicity `l.count v`, and the sum of
the counts is the length of the list. -/
noncomputable def shannon_ent (l : List ℕ) : ℝ :=
  -∑ v ∈ l.toFinset,
      ((l.count v : ℝ) / (l.length : ℝ)) *
        Real.log ((l.count v : ℝ) / (l.length : ℝ)) / Real.log 256

/-- `statistics.median([a, b])` on a two-element list: the average of the two
middle elements, `(a + b) / 2`. -/
noncomputable def statistics_median2 (a b : ℝ) : ℝ := (a + b) / 2

/-- Python's `-(-a // b)` on nonnegative ints: ceiling division (for `b ≥ 1`). -/
def ceil_div (a b : ℕ) : ℕ := (a + b - 1) / b

/-- `get_chunk(fh, chunksize)`: repeatedly `fh.read(chunksize)` and yield the
chunk until the read comes back empty.  A read of `0` bytes returns an empty
chunk immediately, so a zero `chunksize` yields nothing. -/
def get_chunk (chunksize : ℕ) (s : List ℕ) : List (List ℕ) :=
  if h : s = [] ∨ chunksize = 0 then []
  else s.take chunksize :: get_chunk chunksize (s.drop chunksize)
termination_by s.length
decreasing_by
  simp only [List.length_drop]
  have h1 : s ≠ [] := fun hs => h (Or.inl hs)
  have h2 : chunksize ≠ 0 := fun hc => h (Or.inr hc)
  have := List.length_pos.mpr h1
  omega

/-- The per-chunk loop of `bin_ent`: for each chunk the raw entropy is
computed, a median with the previous raw entropy is computed into `ent`,
`prev_ent` is updated, and then `ent` is reassigned to `real_ent`
(`ent = real_ent` in the source) before being appended. -/
noncomputable def bin_ent_loop (prev_ent : ℝ) : List (List ℕ) → List ℝ
  | [] => []
  | chunk :: rest =>
    let real_ent := shannon_ent chunk
    let ent := statistics_median2 real_ent prev_ent
    let ent := real_ent
    ent :: bin_ent_loop real_ent rest

/-- The entropy sample series produced by `bin_ent` over stream `s` with
target chunk count `chunks`: chunk size is `-(-filesize // chunks)` and the
chunks are produced by `get_chunk`.  `chunks = 0` raises `ZeroDivisionError`
in the source, modelled as `none`. -/
noncomputable def bin_ent_shannon_samples (s : List ℕ) (chunks : ℕ) :
    Option (List ℝ) :=
  if chunks = 0 then none
  else some (bin_ent_loop 0 (get_chunk (ceil_div s.length chunks) s))

/-- The inner accumulation of `bin_ent` for one tracked byte group: for each
`b` in the group's list `occurance += cbytes[b]`, i.e. the sum over the list
entries of the count of that byte value in the chunk (entries are not
deduplicated). -/
def ibyte_occurance (b_range : List ℕ) (chunk : List ℕ) : ℕ :=
  (b_range.map fun b => chunk.count b).sum

/-- The percentage appended per chunk for a tracked byte group:
`(float(occurance) / float(len(chunk))) * 100`. -/
noncomputable def ibyte_percentage (b_range chunk : List ℕ) : ℝ :=
  ((ibyte_occurance b_range chunk : ℝ) / (chunk.length : ℝ)) * 100

/-- The per-chunk percentage series of `bin_ent` for one tracked byte group:
one percentage appended for each chunk, in chunk order. -/
noncomputable def bin_ent_byte_series (b_range : List ℕ) (chunksize : ℕ)
    (s : List ℕ) : List ℝ :=
  (get_chunk chunksize s).map (ibyte_percentage b_range)

/-- The block loop of `section_ent_line`, with explicit state: iteration
index `i` (starting at 1), `prev_end` (start of the next block), `prev_ent`
(previous raw entropy).  While `prev_end ≤ len(content)`:
`block_start = prev_end`, `block_end = i * block_len`, the block is
`content[block_start : block_end]`, its raw entropy is smoothed by
`statistics.median` with the previous raw entropy, and
`prev_end = block_end + 1`, `i += 1`.  The `fuel` argument is an upper bound
on the remaining iterations; the loop as called from `section_ent_line`
never exhausts it. -/
noncomputable def sel_go (content : List ℕ) (block_len : ℕ) :
    ℕ → ℕ → ℕ → ℝ → List ℝ
  | 0, _, _, _ => []
  | fuel + 1, i, prev_end, prev_ent =>
    if prev_end ≤ content.length then
      let block_start := prev_end
      let block_end := i * block_len
      let real_ent :=
        shannon_ent ((content.drop block_start).take (block_end - block_start))
      let ent := statistics_median2 real_ent prev_ent
      ent :: sel_go content block_len fuel (i + 1) (block_end + 1) real_ent
    else []

/-- The entropy sample series produced by `section_ent_line` for one section
content with block count `block_size`: `block_len = -(-len(content) //
block_size)` and the loop starts with `i = 1`, `prev_end = 0`, `prev_ent = 0`.
`block_size = 0` raises `ZeroDivisionError` in the source, modelled as
`none`. -/
noncomputable def section_ent_line (content : List ℕ) (block_size : ℕ) :
    Option (List ℝ) :=
  if block_size = 0 then none
  else some (sel_go content (ceil_div content.length block_size)
    (content.length + 2) 1 0 0)

/-- Modelled from the spec's description of block generation (§4.3 of the
spec): block `k` (0-indexed) starts at `0` for `k = 0` and at
`k * block_len + 1` afterwards (one byte skipped between consecutive blocks),
and ends at `(k+1) * block_len`; `spec_block_raw` is that block's raw
entropy. -/
noncomputable def spec_block_raw (content : List ℕ) (block_len k : ℕ) : ℝ :=
  let bstart := if k = 0 then 0 else k * block_len + 1
  shannon_ent ((content.drop bstart).take ((k + 1) * block_len - bstart))

/-- Modelled from the spec: sample `k` is the median of block `k`'s raw
entropy and block `k-1`'s raw entropy, the previous raw entropy being `0`
before the first block. -/
noncomputable def spec_sample (content : List ℕ) (block_len k : ℕ) : ℝ :=
  statistics_median2 (spec_block_raw content block_len k)
    (if k = 0 then 0 else spec_block_raw content block_len (k - 1))

/-- Modelled from the spec's description of per-section profiling: exactly
`(len - 1) / block_len + 1` blocks for nonempty content (one block for empty
content), each smoothed per `spec_sample`. -/
noncomputable def spec_section_samples (content : List ℕ) (block_size : ℕ) :
    List ℝ :=
  let bl := ceil_div content.length block_size
  let K := if content.length = 0 then 1 else (content.length - 1) / bl + 1
  (List.range K).map (spec_sample content bl)

/-- The value-indexed byte histogram of `bin_hist` /
`section_byte_occurance_histogram`: `for x in range(ignore_0, 256):
ordered_row.append(c[x])` where `c = Counter(data)`. -/
def ordered_row (ignore0 : Bool) (data : List ℕ) : List ℕ :=
  (List.range' (if ignore0 then 1 else 0) (256 - if ignore0 then 1 else 0)).map
    fun x => data.count x

/-- The rank-ordered histogram: the same counts, `sort()`-ed ascending and
then `reverse()`-d. -/
def sorted_row (ignore0 : Bool) (data : List ℕ) : List ℕ :=
  ((ordered_row ignore0 data).insertionSort (· ≤ ·)).reverse

/-- The 256-entry vector of byte-value occurrence counts of a byte sequence
(the value-indexed histogram with zero included). -/
def counts_vec (l : List ℕ) : List ℕ := (List.range 256).map fun v => l.count v

/-- A count vector sorted in descending order. -/
def desc_sort (cs : List ℕ) : List ℕ := cs.insertionSort (· ≥ ·)

/-- The descending-sorted count vector read as a function, padded with zeros
beyond its length. -/
def descF (cs : List ℕ) (i : ℕ) : ℕ := (desc_sort cs).getD i 0

/-- Modelled from the spec's words for C8 ("more uniform than (majorized
by)"): `x` majorizes `y` when every prefix sum of the descending-sorted
vector of `x` dominates the corresponding prefix sum for `y` (standard
majorization of count distributions). -/
def majorizes (x y : List ℕ) : Prop :=
  ∀ k, ∑ i ∈ Finset.range k, descF y i ≤ ∑ i ∈ Finset.range k, descF x i

/-! ### Basic facts about `shannon_ent` -/

lemma list_length_eq_sum_count (l : List ℕ) :
    ∑ v ∈ l.toFinset, l.count v = l.length := by
  simpa using Multiset.toFinset_sum_count_eq (l : Multiset ℕ)

lemma shannon_ent_nil : shannon_ent [] = 0 := by
  simp [shannon_ent]

lemma shannon_ent_replicate (N v : ℕ) (hN : 1 ≤ N) :
    shannon_ent (List.replicate N v) = 0 := by
  have hN' : N ≠ 0 := by omega
  have h1 : (List.replicate N v).toFinset = {v} := by
    ext w
    simp [List.mem_toFinset, List.mem_replicate, hN']
  rw [shannon_ent, h1, Finset.sum_singleton]
  have h2 : ((List.replicate N v).count v : ℝ) / ((List.replicate N v).length : ℝ) = 1 := by
    rw [List.count_replicate_self, List.length_replicate]
    rw [div_self (by exact_mod_cast hN')]
  rw [h2]
  simp

lemma shannon_ent_uniform (l : List ℕ) (m : ℕ) (hm : 1 ≤ m)
    (hlt : ∀ b ∈ l, b < 256) (hcnt : ∀ v, v < 256 → l.count v = m) :
    shannon_ent l = 1 := by
  have hm' : (m : ℝ) ≠ 0 := by exact_mod_cast Nat.one_le_iff_ne_zero.mp hm
  have htf : l.toFinset = Finset.range 256 := by
    ext v
    simp only [List.mem_toFinset, Finset.mem_range]
    constructor
    · exact fun hv => hlt v hv
    · intro hv
      have : 0 < l.count v := by rw [hcnt v hv]; omega
      exact List.count_pos_iff.mp this
  have hlen : l.length = 256 * m := by
    rw [← list_length_eq_sum_count, htf]
    rw [Finset.sum_congr rfl fun v hv => hcnt v (Finset.mem_range.mp hv)]
    simp [Finset.sum_const, Nat.mul_comm]
  have hfrac : ∀ v ∈ Finset.range 256,
      ((l.count v : ℝ) / (l.length : ℝ)) *
        Real.log ((l.count v : ℝ) / (l.length : ℝ)) / Real.log 256 =
      (1 / 256) * Real.log (1 / 256) / Real.log 256 := by
    intro v hv
    have : ((l.count v : ℝ) / (l.length : ℝ)) = 1 / 256 := by
      rw [hcnt v (Finset.mem_range.mp hv), hlen]
      push_cast
      field_simp
      ring
    rw [this]
  have hlog : Real.log 256 ≠ 0 := by
    have : (0 : ℝ) < Real.log 256 := Real.log_pos (by norm_num)
    linarith
  rw [shannon_ent, htf, Finset.sum_congr rfl hfrac, Finset.sum_const]
  rw [Finset.card_range]
  have h256 : Real.log (1 / 256) = -Real.log 256 := by
    rw [one_div, Real.log_inv]
  rw [h256]
  field_simp

/-- C3: `shannon_ent` applied to an empty byte sequence is defined (the
embedding is a total function) and returns 0. -/
theorem C3_shannon_ent_empty : shannon_ent [] = 0 := shannon_ent_nil

/-- C7: `shannon_ent` of `N ≥ 1` copies of a single byte value is exactly 0,
and `shannon_ent` of any input in which all 256 byte values occur with equal
frequency `m ≥ 1` is exactly 1 (hence within any floating-point tolerance
of 1). -/
theorem C7_shannon_ent_extremes :
    (∀ N v : ℕ, 1 ≤ N → shannon_ent (List.replicate N v) = 0) ∧
    (∀ (l : List ℕ) (m : ℕ), 1 ≤ m → (∀ b ∈ l, b < 256) →
      (∀ v, v < 256 → l.count v = m) → shannon_ent l = 1) :=
  ⟨fun N v hN => shannon_ent_replicate N v hN,
   fun l m hm hlt hcnt => shannon_ent_uniform l m hm hlt hcnt⟩

/-- Witness for C7: two copies of byte 0 give entropy 0, and the sequence
`[0, 1, …, 255]` (each byte value exactly once) gives entropy 1. -/
theorem C7_shannon_ent_extremes_witness :
    (1 ≤ 2 ∧ shannon_ent (List.replicate 2 0) = 0) ∧
    ((1 ≤ 1 ∧ (∀ b ∈ List.range 256, b < 256) ∧
      (∀ v, v < 256 → (List.range 256).count v = 1)) ∧
      shannon_ent (List.range 256) = 1) := by
  have hcnt : ∀ v, v < 256 → (List.range 256).count v = 1 := fun v hv =>
    List.count_eq_one_of_mem (List.nodup_range 256) (List.mem_range.mpr hv)
  have hmem : ∀ b ∈ List.range 256, b < 256 := fun b hb => List.mem_range.mp hb
  exact ⟨⟨by norm_num, C7_shannon_ent_extremes.1 2 0 (by norm_num)⟩,
    ⟨⟨le_refl 1, hmem, hcnt⟩,
      C7_shannon_ent_extremes.2 (List.range 256) 1 (le_refl 1) hmem hcnt⟩⟩

/-! ### Structure of `get_chunk` and of the `bin_ent` sample loop -/

lemma get_chunk_nil (c : ℕ) : get_chunk c [] = [] := by
  rw [get_chunk]; simp

lemma get_chunk_cons (c : ℕ) (hc : c ≠ 0) (s : List ℕ) (hs : s ≠ []) :
    get_chunk c s = s.take c :: get_chunk c (s.drop c) := by
  rw [get_chunk]; simp [hs, hc]

lemma get_chunk_length (c : ℕ) (hc : c ≠ 0) (s : List ℕ) :
    (get_chunk c s).length = ceil_div s.length c := by
  by_cases hs : s = []
  · subst hs
    rw [get_chunk_nil]
    simp [ceil_div, Nat.div_eq_of_lt (by omega : c - 1 < c)]
  · have hlen : 0 < s.length := List.length_pos.mpr hs
    have ih := get_chunk_length c hc (s.drop c)
    rw [get_chunk_cons c hc s hs]
    simp only [List.length_cons, ih, List.length_drop, ceil_div]
    rcases le_or_lt s.length c with hle | hlt
    · have h1 : s.length - c + c - 1 = c - 1 := by omega
      have h2 : (c - 1) / c = 0 := Nat.div_eq_of_lt (by omega)
      have h3 : (s.length + c - 1) / c = 1 :=
        Nat.div_eq_of_lt_le (by omega) (by omega)
      rw [h1, h2, h3]
    · have h1 : s.length - c + c - 1 = s.length - 1 - c + c := by omega
      have h2 : s.length + c - 1 = s.length - 1 + c := by omega
      have h3 : s.length - 1 = s.length - 1 - c + c := by omega
      rw [h1, h2, Nat.add_div_right _ (by omega), Nat.add_div_right _ (by omega)]
      conv_rhs => rw [h3]
      rw [Nat.add_div_right _ (by omega)]
termination_by s.length
decreasing_by
  simp only [List.length_drop]
  omega

lemma get_chunk_join (c : ℕ) (hc : c ≠ 0) (s : List ℕ) :
    (get_chunk c s).flatten = s := by
  by_cases hs : s = []
  · subst hs; rw [get_chunk_nil]; rfl
  · have hlen : 0 < s.length := List.length_pos.mpr hs
    have ih := get_chunk_join c hc (s.drop c)
    rw [get_chunk_cons c hc s hs]
    simp only [List.flatten_cons, ih, List.take_append_drop]
termination_by s.length
decreasing_by
  simp only [List.length_drop]
  omega

lemma get_chunk_ne_nil (c : ℕ) (hc : c ≠ 0) (s : List ℕ) :
    ∀ t ∈ get_chunk c s, t ≠ [] := by
  by_cases hs : s = []
  · subst hs; rw [get_chunk_nil]; simp
  · have hlen : 0 < s.length := List.length_pos.mpr hs
    have ih := get_chunk_ne_nil c hc (s.drop c)
    rw [get_chunk_cons c hc s hs]
    intro t ht
    rcases List.mem_cons.mp ht with rfl | hmem
    · intro htake
      have := congrArg List.length htake
      simp only [List.length_take, List.length_nil] at this
      omega
    · exact ih t hmem
termination_by s.length
decreasing_by
  simp only [List.length_drop]
  omega

lemma get_chunk_sizes (c : ℕ) (hc : c ≠ 0) (s : List ℕ) :
    ∀ i, i + 1 < (get_chunk c s).length → ((get_chunk c s).getD i []).length = c := by
  by_cases hs : s = []
  · subst hs; rw [get_chunk_nil]; intro i hi; simp at hi
  · have hlen : 0 < s.length := List.length_pos.mpr hs
    have ih := get_chunk_sizes c hc (s.drop c)
    rw [get_chunk_cons c hc s hs]
    intro i hi
    simp only [List.length_cons] at hi
    match i with
    | 0 =>
      have hrest : get_chunk c (s.drop c) ≠ [] := by
        intro hnil
        rw [hnil] at hi
        simp at hi
      have hdrop : s.drop c ≠ [] := by
        intro hnil
        rw [hnil, get_chunk_nil] at hrest
        exact hrest rfl
      have hclt : c < s.length := by
        have := List.length_pos.mpr hdrop
        simp only [List.length_drop] at this
        omega
      simp only [List.getD_cons_zero, List.length_take]
      omega
    | j + 1 =>
      simp only [List.getD_cons_succ]
      exact ih j (by omega)
termination_by s.length
decreasing_by
  simp only [List.length_drop]
  omega

lemma bin_ent_loop_eq_map (p : ℝ) (cs : List (List ℕ)) :
    bin_ent_loop p cs = cs.map shannon_ent := by
  induction cs generalizing p with
  | nil => rfl
  | cons chunk rest ih => simp [bin_ent_loop, ih]

/-- C1 (amended): for every byte stream and every target chunk count `N ≥ 1`,
the sample series emitted by `bin_ent` is the raw Shannon entropy of each
chunk, in chunk order: the median of the raw entropy and the previous raw
entropy is computed, but the source then reassigns `ent = real_ent`, so the
emitted sample is the raw entropy rather than the median. -/
theorem C1_bin_ent_samples_are_raw (s : List ℕ) (N : ℕ) (hN : 1 ≤ N) :
    bin_ent_shannon_samples s N =
      some ((get_chunk (ceil_div s.length N) s).map shannon_ent) := by
  rw [bin_ent_shannon_samples, if_neg (by omega), bin_ent_loop_eq_map]

/-- Witness for C1 (amended), at the stream `[0]` with chunk count 1. -/
theorem C1_bin_ent_samples_are_raw_witness :
    1 ≤ 1 ∧ bin_ent_shannon_samples [0] 1 =
      some ((get_chunk (ceil_div ([0] : List ℕ).length 1) [0]).map shannon_ent) :=
  ⟨le_refl 1, C1_bin_ent_samples_are_raw [0] 1 (le_refl 1)⟩

lemma shannon_ent_one_two : shannon_ent ([1, 2] : List ℕ) = 1 / 8 := by
  have htf : ([1, 2] : List ℕ).toFinset = {1, 2} := by decide
  have h12 : (1 : ℕ) ≠ 2 := by norm_num
  have hc1 : ([1, 2] : List ℕ).count 1 = 1 := by decide
  have hc2 : ([1, 2] : List ℕ).count 2 = 1 := by decide
  have hlen : ([1, 2] : List ℕ).length = 2 := rfl
  rw [shannon_ent, htf, Finset.sum_pair h12, hc1, hc2, hlen]
  have hl2 : Real.log 256 = 8 * Real.log 2 := by
    have h : (256 : ℝ) = 2 ^ (8 : ℕ) := by norm_num
    rw [h, Real.log_pow]
    norm_num
  have hhalf : Real.log ((1 : ℝ) / 2) = -Real.log 2 := by
    rw [one_div, Real.log_inv]
  have h2 : Real.log 2 ≠ 0 := ne_of_gt (Real.log_pos (by norm_num))
  push_cast
  rw [hl2]
  rw [show ((1 : ℝ) / 2 * Real.log (1 / 2) / (8 * Real.log 2) +
      1 / 2 * Real.log (1 / 2) / (8 * Real.log 2)) =
      Real.log (1 / 2) / (8 * Real.log 2) by ring]
  rw [hhalf]
  field_simp
  ring

lemma shannon_ent_zero_zero : shannon_ent ([0, 0] : List ℕ) = 0 :=
  shannon_ent_replicate 2 0 (by norm_num)

/-- C1 counterexample: over the stream `[0, 0, 1, 2]` with chunk count 2 the
chunks are `[0, 0]` and `[1, 2]`; the claim predicts the second sample to be
`median(raw_1, raw_0) = (1/8 + 0)/2 = 1/16`, but `bin_ent` emits the raw
entropies `[0, 1/8]`. -/
theorem C1_median_claim_counterexample :
    bin_ent_shannon_samples [0, 0, 1, 2] 2 ≠
      some [statistics_median2 (shannon_ent [0, 0]) 0,
            statistics_median2 (shannon_ent [1, 2]) (shannon_ent [0, 0])] := by
  have hcd : ceil_div ([0, 0, 1, 2] : List ℕ).length 2 = 2 := by decide
  have hchunks : get_chunk 2 [0, 0, 1, 2] = [[0, 0], [1, 2]] := by
    rw [get_chunk_cons 2 (by norm_num) _ (by simp)]
    norm_num
    rw [get_chunk_cons 2 (by norm_num) _ (by simp)]
    norm_num
    exact get_chunk_nil 2
  rw [bin_ent_shannon_samples, if_neg (by norm_num), bin_ent_loop_eq_map,
    hcd, hchunks]
  simp only [List.map_cons, List.map_nil]
  intro h
  have h' := Option.some.inj h
  simp only [List.cons.injEq, and_true] at h'
  obtain ⟨h1, h2⟩ := h'
  rw [shannon_ent_one_two, shannon_ent_zero_zero, statistics_median2] at h2
  norm_num at h2

lemma bytes_lt_256_of_uniform (l : List ℕ) (hlen : l.length = 256)
    (hcnt : ∀ v, v < 256 → l.count v = 1) : ∀ b ∈ l, b < 256 := by
  intro b hb
  by_contra hge
  push_neg at hge
  have hsub : Finset.range 256 ⊆ l.toFinset := by
    intro v hv
    rw [List.mem_toFinset]
    exact List.count_pos_iff.mp (by rw [hcnt v (Finset.mem_range.mp hv)]; omega)
  have hsum := list_length_eq_sum_count l
  have hsplit : (∑ v ∈ l.toFinset \ Finset.range 256, l.count v) +
      ∑ v ∈ Finset.range 256, l.count v = ∑ v ∈ l.toFinset, l.count v :=
    Finset.sum_sdiff hsub
  have hrange : ∑ v ∈ Finset.range 256, l.count v = 256 := by
    rw [Finset.sum_congr rfl fun v hv => hcnt v (Finset.mem_range.mp hv)]
    simp
  have hzero : ∑ v ∈ l.toFinset \ Finset.range 256, l.count v = 0 := by omega
  have hbmem : b ∈ l.toFinset \ Finset.range 256 := by
    rw [Finset.mem_sdiff, List.mem_toFinset, Finset.mem_range]
    exact ⟨hb, by omega⟩
  have h1 := Finset.sum_eq_zero_iff.mp hzero b hbmem
  have h2 := List.count_pos_iff.mpr hb
  omega

/-- C2: for a 256-byte stream containing each byte value exactly once,
`bin_ent` with chunk count 1 produces exactly one entropy sample, whose value
is exactly 1 (hence within tolerance `1e-9` of 1). -/
theorem C2_uniform_256_single_chunk (l : List ℕ) (hlen : l.length = 256)
    (hcnt : ∀ v, v < 256 → l.count v = 1) :
    bin_ent_shannon_samples l 1 = some [shannon_ent l] ∧
      |shannon_ent l - 1| ≤ 1 / 1000000000 := by
  have hb := bytes_lt_256_of_uniform l hlen hcnt
  have hent : shannon_ent l = 1 := shannon_ent_uniform l 1 le_rfl hb hcnt
  constructor
  · rw [bin_ent_shannon_samples, if_neg (by norm_num)]
    have hcd : ceil_div l.length 1 = 256 := by rw [hlen]; decide
    have hne : l ≠ [] := by intro h; rw [h] at hlen; simp at hlen
    have hdrop : l.drop 256 = [] := by
      rw [List.drop_eq_nil_iff]
      omega
    have htake : l.take 256 = l := List.take_of_length_le (by omega)
    rw [hcd, get_chunk_cons 256 (by norm_num) l hne, hdrop, get_chunk_nil,
      htake, bin_ent_loop_eq_map]
    rfl
  · rw [hent]
    norm_num

/-- Witness for C2, at the stream `[0, 1, …, 255]`. -/
theorem C2_uniform_256_single_chunk_witness :
    ((List.range 256).length = 256 ∧
      (∀ v, v < 256 → (List.range 256).count v = 1)) ∧
    (bin_ent_shannon_samples (List.range 256) 1 =
        some [shannon_ent (List.range 256)] ∧
      |shannon_ent (List.range 256) - 1| ≤ 1 / 1000000000) := by
  have hcnt : ∀ v, v < 256 → (List.range 256).count v = 1 := fun v hv =>
    List.count_eq_one_of_mem (List.nodup_range 256) (List.mem_range.mpr hv)
  exact ⟨⟨by simp, hcnt⟩,
    C2_uniform_256_single_chunk (List.range 256) (by simp) hcnt⟩

/-- C5: over a non-empty stream of length `L` with target chunk count
`N ≥ 1`, `bin_ent` produces exactly `ceil(L / ceil(L/N))` entropy samples;
the chunks concatenate back to the stream in order with no gaps (so chunk
offsets strictly increase, every chunk being non-empty), and every chunk
except possibly the last has length exactly `ceil(L/N)`. -/
theorem C5_chunk_partition (s : List ℕ) (N : ℕ) (hs : s ≠ []) (hN : 1 ≤ N) :
    (∃ samples : List ℝ, bin_ent_shannon_samples s N = some samples ∧
      samples.length = ceil_div s.length (ceil_div s.length N)) ∧
    (get_chunk (ceil_div s.length N) s).flatten = s ∧
    (∀ t ∈ get_chunk (ceil_div s.length N) s, t ≠ []) ∧
    (∀ i, i + 1 < (get_chunk (ceil_div s.length N) s).length →
      ((get_chunk (ceil_div s.length N) s).getD i []).length =
        ceil_div s.length N) := by
  have h1 : 0 < s.length := List.length_pos.mpr hs
  have hc : ceil_div s.length N ≠ 0 := by
    have h2 : 1 ≤ (s.length + N - 1) / N :=
      (Nat.le_div_iff_mul_le (by omega)).mpr (by omega)
    rw [ceil_div]
    omega
  refine ⟨⟨(get_chunk (ceil_div s.length N) s).map shannon_ent, ?_, ?_⟩,
    get_chunk_join _ hc s, get_chunk_ne_nil _ hc s, get_chunk_sizes _ hc s⟩
  · rw [bin_ent_shannon_samples, if_neg (by omega), bin_ent_loop_eq_map]
  · rw [List.length_map, get_chunk_length _ hc s]

/-- Witness for C5, at the stream `[0, 1, 2]` with chunk count 2 (chunk size
2, chunks `[0, 1]` and `[2]`). -/
theorem C5_chunk_partition_witness :
    (([0, 1, 2] : List ℕ) ≠ [] ∧ 1 ≤ 2) ∧
    ((∃ samples : List ℝ, bin_ent_shannon_samples [0, 1, 2] 2 = some samples ∧
      samples.length = ceil_div ([0, 1, 2] : List ℕ).length
        (ceil_div ([0, 1, 2] : List ℕ).length 2)) ∧
    (get_chunk (ceil_div ([0, 1, 2] : List ℕ).length 2) [0, 1, 2]).flatten =
      [0, 1, 2] ∧
    (∀ t ∈ get_chunk (ceil_div ([0, 1, 2] : List ℕ).length 2) [0, 1, 2],
      t ≠ []) ∧
    (∀ i, i + 1 <
        (get_chunk (ceil_div ([0, 1, 2] : List ℕ).length 2) [0, 1, 2]).length →
      ((get_chunk (ceil_div ([0, 1, 2] : List ℕ).length 2)
          [0, 1, 2]).getD i []).length =
        ceil_div ([0, 1, 2] : List ℕ).length 2)) :=
  ⟨⟨by simp, by norm_num⟩,
    C5_chunk_partition [0, 1, 2] 2 (by simp) (by norm_num)⟩

/-! ### Entropy bounds -/

lemma mul_log_tangent (u v : ℝ) (hu : 0 ≤ u) (hv : 0 < v) :
    v * Real.log v + (Real.log v + 1) * (u - v) ≤ u * Real.log u := by
  rcases eq_or_lt_of_le hu with heq | hupos
  · rw [← heq]
    simp only [Real.log_zero, mul_zero, zero_mul, zero_sub, mul_neg]
    nlinarith [hv]
  · have hlog : Real.log v - Real.log u ≤ v / u - 1 := by
      have h := Real.log_le_sub_one_of_pos (show 0 < v / u by positivity)
      rwa [Real.log_div (ne_of_gt hv) (ne_of_gt hupos)] at h
    have h2 : u * (Real.log v - Real.log u) ≤ u * (v / u - 1) :=
      mul_le_mul_of_nonneg_left hlog (le_of_lt hupos)
    have h3 : u * (v / u - 1) = v - u := by field_simp
    rw [h3] at h2
    nlinarith [h2]

lemma sum_probs_eq_one (l : List ℕ) (hne : l ≠ []) :
    ∑ v ∈ l.toFinset, ((l.count v : ℝ) / (l.length : ℝ)) = 1 := by
  have hn : 0 < l.length := List.length_pos.mpr hne
  have hnR : ((l.length : ℝ)) ≠ 0 := by positivity
  rw [← Finset.sum_div]
  rw [show ∑ v ∈ l.toFinset, ((l.count v : ℝ)) = (l.length : ℝ) by
    rw [← Nat.cast_sum]
    exact_mod_cast congrArg (Nat.cast (R := ℝ)) (list_length_eq_sum_count l)]
  field_simp

/-- C6: for every non-empty byte sequence, `shannon_ent` lies in `[0, 1]`. -/
theorem C6_shannon_ent_range (l : List ℕ) (hne : l ≠ [])
    (hb : ∀ b ∈ l, b < 256) : 0 ≤ shannon_ent l ∧ shannon_ent l ≤ 1 := by
  have hn : 0 < l.length := List.length_pos.mpr hne
  have hnR : (0 : ℝ) < (l.length : ℝ) := by exact_mod_cast hn
  have hlog256 : (0 : ℝ) < Real.log 256 := Real.log_pos (by norm_num)
  have hppos : ∀ v ∈ l.toFinset, 0 < (l.count v : ℝ) / (l.length : ℝ) := by
    intro v hv
    have hcp : 0 < l.count v := List.count_pos_iff.mpr (List.mem_toFinset.mp hv)
    apply div_pos _ hnR
    exact_mod_cast hcp
  have hple : ∀ v ∈ l.toFinset, (l.count v : ℝ) / (l.length : ℝ) ≤ 1 := by
    intro v hv
    rw [div_le_one hnR]
    exact_mod_cast List.count_le_length v l
  have hrw : shannon_ent l =
      (∑ v ∈ l.toFinset,
        -(((l.count v : ℝ) / (l.length : ℝ)) *
          Real.log ((l.count v : ℝ) / (l.length : ℝ)))) / Real.log 256 := by
    rw [shannon_ent, ← Finset.sum_div, Finset.sum_neg_distrib, neg_div]
  constructor
  · rw [hrw]
    apply div_nonneg _ (le_of_lt hlog256)
    apply Finset.sum_nonneg
    intro v hv
    rw [neg_nonneg]
    exact mul_nonpos_of_nonneg_of_nonpos (le_of_lt (hppos v hv))
      (Real.log_nonpos (le_of_lt (hppos v hv)) (hple v hv))
  · set k := l.toFinset.card with hkdef
    have hk0 : 0 < k := by
      obtain ⟨a, ha⟩ := List.exists_mem_of_ne_nil l hne
      exact Finset.card_pos.mpr ⟨a, List.mem_toFinset.mpr ha⟩
    have hk256 : k ≤ 256 := by
      have hsub : l.toFinset ⊆ Finset.range 256 := fun v hv =>
        Finset.mem_range.mpr (hb v (List.mem_toFinset.mp hv))
      simpa using Finset.card_le_card hsub
    have hkR : (0 : ℝ) < (k : ℝ) := by exact_mod_cast hk0
    have hinvk : (0 : ℝ) < 1 / (k : ℝ) := by positivity
    have hterm : ∀ v ∈ l.toFinset,
        -(((l.count v : ℝ) / (l.length : ℝ)) *
            Real.log ((l.count v : ℝ) / (l.length : ℝ))) ≤
          -((1 / (k : ℝ)) * Real.log (1 / (k : ℝ))) -
            (Real.log (1 / (k : ℝ)) + 1) *
              (((l.count v : ℝ) / (l.length : ℝ)) - 1 / (k : ℝ)) := by
      intro v hv
      have ht := mul_log_tangent ((l.count v : ℝ) / (l.length : ℝ))
        (1 / (k : ℝ)) (le_of_lt (hppos v hv)) hinvk
      linarith
    have hzero : ∑ v ∈ l.toFinset,
        (((l.count v : ℝ) / (l.length : ℝ)) - 1 / (k : ℝ)) = 0 := by
      rw [Finset.sum_sub_distrib, sum_probs_eq_one l hne, Finset.sum_const,
        nsmul_eq_mul]
      field_simp
    have hsumle : ∑ v ∈ l.toFinset,
        -(((l.count v : ℝ) / (l.length : ℝ)) *
          Real.log ((l.count v : ℝ) / (l.length : ℝ))) ≤ Real.log (k : ℝ) := by
      calc ∑ v ∈ l.toFinset,
          -(((l.count v : ℝ) / (l.length : ℝ)) *
            Real.log ((l.count v : ℝ) / (l.length : ℝ)))
          ≤ ∑ v ∈ l.toFinset,
            (-((1 / (k : ℝ)) * Real.log (1 / (k : ℝ))) -
              (Real.log (1 / (k : ℝ)) + 1) *
                (((l.count v : ℝ) / (l.length : ℝ)) - 1 / (k : ℝ))) :=
            Finset.sum_le_sum hterm
        _ = Real.log (k : ℝ) := by
            rw [Finset.sum_sub_distrib, ← Finset.mul_sum, hzero, mul_zero,
              sub_zero, Finset.sum_const, nsmul_eq_mul, one_div,
              Real.log_inv]
            field_simp
    rw [hrw, div_le_one hlog256]
    calc ∑ v ∈ l.toFinset,
        -(((l.count v : ℝ) / (l.length : ℝ)) *
          Real.log ((l.count v : ℝ) / (l.length : ℝ)))
        ≤ Real.log (k : ℝ) := hsumle
      _ ≤ Real.log 256 := Real.log_le_log hkR (by exact_mod_cast hk256)

/-- Witness for C6, at the one-byte stream `[0]`. -/
theorem C6_shannon_ent_range_witness :
    (([0] : List ℕ) ≠ [] ∧ (∀ b ∈ ([0] : List ℕ), b < 256)) ∧
    (0 ≤ shannon_ent [0] ∧ shannon_ent [0] ≤ 1) :=
  ⟨⟨by simp, by simp⟩, C6_shannon_ent_range [0] (by simp) (by simp)⟩

/-! ### Histogram sums and the rank-ordered histogram -/

lemma list_sum_map_add (l : List ℕ) (f g : ℕ → ℕ) :
    (l.map fun x => f x + g x).sum = (l.map f).sum + (l.map g).sum := by
  induction l with
  | nil => rfl
  | cons a t ih =>
    simp only [List.map_cons, List.sum_cons, ih]
    omega

lemma sum_indicator_range (n : ℕ) : ∀ a b : ℕ,
    ((List.range' a n).map fun v => if b = v then 1 else 0).sum =
      if a ≤ b ∧ b < a + n then 1 else 0 := by
  induction n with
  | zero =>
    intro a b
    rw [if_neg (by omega : ¬(a ≤ b ∧ b < a + 0))]
    simp
  | succ m ih =>
    intro a b
    rw [List.range'_succ, List.map_cons, List.sum_cons, ih (a + 1) b]
    split_ifs <;> omega

lemma sum_map_zero_fn (l : List ℕ) : (l.map fun _ => (0 : ℕ)).sum = 0 := by
  induction l with
  | nil => rfl
  | cons a t ih => simpa using ih

lemma count_cons_ite (b v : ℕ) (t : List ℕ) :
    (b :: t).count v = t.count v + if b = v then 1 else 0 := by
  rw [List.count_cons]
  by_cases h : b = v <;> simp [h]

lemma range_count_sum_all (data : List ℕ) :
    (∀ b ∈ data, b < 256) →
      ((List.range' 0 256).map fun v => data.count v).sum = data.length := by
  induction data with
  | nil =>
    intro _
    rw [show (List.range' 0 256).map (fun v => ([] : List ℕ).count v) =
        (List.range' 0 256).map fun _ => 0 from
      List.map_congr_left fun v _ => List.count_nil v, sum_map_zero_fn]
    rfl
  | cons b t ih =>
    intro hb
    have hbt : ∀ x ∈ t, x < 256 := fun x hx => hb x (List.mem_cons_of_mem b hx)
    have hblt : b < 256 := hb b (List.mem_cons_self b t)
    have hmapeq : (List.range' 0 256).map (fun v => (b :: t).count v) =
        (List.range' 0 256).map (fun v => t.count v + if b = v then 1 else 0) :=
      List.map_congr_left fun v _ => count_cons_ite b v t
    rw [hmapeq, list_sum_map_add (List.range' 0 256) (fun v => t.count v)
      (fun v => if b = v then 1 else 0), ih hbt, sum_indicator_range 256 0 b]
    simp only [List.length_cons]
    split_ifs <;> omega

lemma range_count_sum_nonzero (data : List ℕ) :
    (∀ b ∈ data, b < 256) →
      ((List.range' 1 255).map fun v => data.count v).sum =
        data.length - data.count 0 := by
  induction data with
  | nil =>
    intro _
    rw [show (List.range' 1 255).map (fun v => ([] : List ℕ).count v) =
        (List.range' 1 255).map fun _ => 0 from
      List.map_congr_left fun v _ => List.count_nil v, sum_map_zero_fn]
    rfl
  | cons b t ih =>
    intro hb
    have hbt : ∀ x ∈ t, x < 256 := fun x hx => hb x (List.mem_cons_of_mem b hx)
    have hblt : b < 256 := hb b (List.mem_cons_self b t)
    have hc0 : t.count 0 ≤ t.length := List.count_le_length 0 t
    have hmapeq : (List.range' 1 255).map (fun v => (b :: t).count v) =
        (List.range' 1 255).map (fun v => t.count v + if b = v then 1 else 0) :=
      List.map_congr_left fun v _ => count_cons_ite b v t
    rw [hmapeq, list_sum_map_add (List.range' 1 255) (fun v => t.count v)
      (fun v => if b = v then 1 else 0), ih hbt, sum_indicator_range 255 1 b,
      count_cons_ite b 0 t]
    simp only [List.length_cons]
    split_ifs <;> omega

lemma sorted_row_sorted (ig : Bool) (data : List ℕ) :
    (sorted_row ig data).Sorted (· ≥ ·) := by
  rw [sorted_row]
  exact List.pairwise_reverse.mpr
    (List.sorted_insertionSort (· ≤ ·) (ordered_row ig data))

lemma sorted_row_perm (ig : Bool) (data : List ℕ) :
    (sorted_row ig data).Perm (ordered_row ig data) := by
  rw [sorted_row]
  exact (List.reverse_perm _).trans (List.perm_insertionSort _ _)

/-- C9: for a histogram over a byte sequence of length `L`: with zero
included the counts sum to `L`, with zero excluded they sum to `L` minus the
number of zero bytes, and the rank-ordered histogram is a descending-sorted
permutation of the value-indexed histogram. -/
theorem C9_histogram_contracts (data : List ℕ) (hb : ∀ b ∈ data, b < 256) :
    (ordered_row false data).sum = data.length ∧
    (ordered_row true data).sum = data.length - data.count 0 ∧
    (∀ ig : Bool, (sorted_row ig data).Sorted (· ≥ ·) ∧
      (sorted_row ig data).Perm (ordered_row ig data)) := by
  refine ⟨?_, ?_, fun ig => ⟨sorted_row_sorted ig data, sorted_row_perm ig data⟩⟩
  · show ((List.range' 0 256).map fun x => data.count x).sum = data.length
    exact range_count_sum_all data hb
  · show ((List.range' 1 255).map fun x => data.count x).sum =
      data.length - data.count 0
    exact range_count_sum_nonzero data hb

/-- Witness for C9, at the byte sequence `[0, 1, 1]`. -/
theorem C9_histogram_contracts_witness :
    (∀ b ∈ ([0, 1, 1] : List ℕ), b < 256) ∧
    ((ordered_row false [0, 1, 1]).sum = ([0, 1, 1] : List ℕ).length ∧
     (ordered_row true [0, 1, 1]).sum =
       ([0, 1, 1] : List ℕ).length - ([0, 1, 1] : List ℕ).count 0 ∧
     (∀ ig : Bool, (sorted_row ig [0, 1, 1]).Sorted (· ≥ ·) ∧
       (sorted_row ig [0, 1, 1]).Perm (ordered_row ig [0, 1, 1]))) :=
  ⟨by decide, C9_histogram_contracts [0, 1, 1] (by decide)⟩

/-! ### Tracked byte group percentages -/

/-- C10: for every tracked byte group and chunk, the percentage appended by
`bin_ent` equals `100 × (sum over the group's list entries of that value's
count in the chunk) / chunk length`; the list entries are not deduplicated,
so a group listing byte 5 twice over the chunk `[5, 5]` reports 200 %. -/
theorem C10_ibyte_group_percentage :
    (∀ (g : List ℕ) (c : ℕ) (s : List ℕ),
      bin_ent_byte_series g c s = (get_chunk c s).map fun chunk =>
        100 * ((g.map fun b => chunk.count b).sum : ℝ) / (chunk.length : ℝ)) ∧
    ibyte_percentage [5, 5] [5, 5] = 200 ∧
    (100 : ℝ) < ibyte_percentage [5, 5] [5, 5] := by
  have hpct : ibyte_percentage [5, 5] [5, 5] = 200 := by
    have hocc : ibyte_occurance [5, 5] [5, 5] = 4 := by decide
    have hlen : ([5, 5] : List ℕ).length = 2 := rfl
    rw [ibyte_percentage, hocc, hlen]
    norm_num
  refine ⟨fun g c s => ?_, hpct, by rw [hpct]; norm_num⟩
  rw [bin_ent_byte_series]
  apply List.map_congr_left
  intro chunk _
  rw [ibyte_percentage, ibyte_occurance]
  push_cast
  rw [List.map_map]
  simp only [Function.comp_def]
  ring

/-! ### Characterization of the `section_ent_line` block loop -/

lemma sel_go_succ (content : List ℕ) (bl m i pe : ℕ) (pent : ℝ) :
    sel_go content bl (m + 1) i pe pent =
      if pe ≤ content.length then
        statistics_median2
            (shannon_ent ((content.drop pe).take (i * bl - pe))) pent ::
          sel_go content bl m (i + 1) (i * bl + 1)
            (shannon_ent ((content.drop pe).take (i * bl - pe)))
      else [] := rfl

lemma sel_go_char (content : List ℕ) (bl K : ℕ)
    (hK : ∀ k, ((if k = 0 then 0 else k * bl + 1) ≤ content.length ↔ k < K)) :
    ∀ fuel k : ℕ, K - k ≤ fuel →
      sel_go content bl fuel (k + 1)
          (if k = 0 then 0 else k * bl + 1)
          (if k = 0 then 0 else spec_block_raw content bl (k - 1)) =
        (List.range (K - k)).map fun j => spec_sample content bl (k + j) := by
  intro fuel
  induction fuel with
  | zero =>
    intro k hk
    have h0 : K - k = 0 := by omega
    rw [h0]
    rfl
  | succ m ih =>
    intro k hk
    by_cases hkK : k < K
    · have hpe : (if k = 0 then 0 else k * bl + 1) ≤ content.length :=
        (hK k).mpr hkK
      have hKk : K - k = (K - (k + 1)) + 1 := by omega
      have htail : sel_go content bl m (k + 1 + 1) ((k + 1) * bl + 1)
          (shannon_ent ((content.drop (if k = 0 then 0 else k * bl + 1)).take
            ((k + 1) * bl - (if k = 0 then 0 else k * bl + 1)))) =
          (List.range (K - (k + 1))).map
            (fun j => spec_sample content bl (k + 1 + j)) := by
        have h := ih (k + 1) (by omega)
        rw [if_neg (Nat.succ_ne_zero k), if_neg (Nat.succ_ne_zero k)] at h
        exact h
      rw [sel_go_succ, if_pos hpe, hKk, List.range_succ_eq_map,
        List.map_cons, List.map_map]
      congr 1
      rw [htail]
      apply List.map_congr_left
      intro j _
      simp only [Function.comp_apply]
      congr 1
      omega
    · have hpe : ¬((if k = 0 then 0 else k * bl + 1) ≤ content.length) :=
        fun h => hkK ((hK k).mp h)
      rw [sel_go_succ, if_neg hpe]
      have h0 : K - k = 0 := by omega
      rw [h0]
      rfl

/-- C4: `section_ent_line` realizes exactly the spec's block generation: with
`block_len = ceil(len/B)`, block `k` runs from `prev_end` (0 initially,
`k·block_len + 1` afterwards, one byte skipped between blocks) to
`(k+1)·block_len`, the loop stops exactly when `prev_end` exceeds the content
length (`(len-1)/block_len + 1` blocks for non-empty content, one for empty),
and each emitted sample is the median of the block's raw entropy and the
previous block's raw entropy, seeded with 0 for the first block. -/
theorem C4_section_ent_line_blocks (content : List ℕ) (B : ℕ) (hB : 1 ≤ B) :
    section_ent_line content B = some (spec_section_samples content B) := by
  have hcond : ∀ k,
      ((if k = 0 then 0 else k * ceil_div content.length B + 1) ≤
          content.length ↔
        k < (if content.length = 0 then 1
          else (content.length - 1) / ceil_div content.length B + 1)) := by
    intro k
    by_cases hL0 : content.length = 0
    · rw [hL0]
      have hbl0 : ceil_div 0 B = 0 := by
        rw [ceil_div]
        exact Nat.div_eq_of_lt (by omega)
      rw [hbl0, if_pos rfl]
      rcases Nat.eq_zero_or_pos k with rfl | hk
      · simp
      · rw [if_neg (by omega)]
        omega
    · have hbl1 : 1 ≤ ceil_div content.length B := by
        rw [ceil_div]
        have h := (Nat.le_div_iff_mul_le (by omega : 0 < B)).mpr
          (by omega : 1 * B ≤ content.length + B - 1)
        omega
      rw [if_neg hL0]
      rcases Nat.eq_zero_or_pos k with rfl | hk
      · rw [if_pos rfl]
        constructor
        · intro _
          exact Nat.succ_pos _
        · intro _
          exact Nat.zero_le _
      · rw [if_neg (by omega)]
        constructor
        · intro h
          have h2 : k * ceil_div content.length B ≤ content.length - 1 := by
            omega
          have h3 := (Nat.le_div_iff_mul_le (by omega :
            0 < ceil_div content.length B)).mpr h2
          exact Nat.lt_succ_of_le h3
        · intro h
          have h2 : k ≤ (content.length - 1) / ceil_div content.length B :=
            Nat.lt_succ_iff.mp h
          have h3 := (Nat.le_div_iff_mul_le (by omega :
            0 < ceil_div content.length B)).mp h2
          omega
  have hfuel : (if content.length = 0 then 1
      else (content.length - 1) / ceil_div content.length B + 1) - 0 ≤
        content.length + 2 := by
    by_cases hL0 : content.length = 0
    · rw [if_pos hL0]
      omega
    · rw [if_neg hL0]
      have := Nat.div_le_self (content.length - 1) (ceil_div content.length B)
      omega
  have hchar := sel_go_char content (ceil_div content.length B)
    (if content.length = 0 then 1
      else (content.length - 1) / ceil_div content.length B + 1)
    hcond (content.length + 2) 0 hfuel
  rw [section_ent_line, if_neg (by omega)]
  congr 1
  show sel_go content (ceil_div content.length B) (content.length + 2) 1 0 0 =
    (List.range (if content.length = 0 then 1
      else (content.length - 1) / ceil_div content.length B + 1)).map
      (spec_sample content (ceil_div content.length B))
  refine Eq.trans hchar ?_
  apply List.map_congr_left
  intro j _
  rw [Nat.zero_add]

/-- Witness for C4, at content `[0, 1, 2]` with block count 2. -/
theorem C4_section_ent_line_blocks_witness :
    1 ≤ 2 ∧ section_ent_line [0, 1, 2] 2 =
      some (spec_section_samples [0, 1, 2] 2) :=
  ⟨by norm_num, C4_section_ent_line_blocks [0, 1, 2] 2 (by norm_num)⟩

/-! ### Schur concavity of the entropy sum under majorization -/

lemma negMulLog_transfer (a a2 b2 b : ℝ) (ha : 0 ≤ a) (h1 : a ≤ a2)
    (h2 : a2 ≤ b2) (h3 : b2 ≤ b) (hsum : a + b = a2 + b2) :
    Real.negMulLog a + Real.negMulLog b ≤
      Real.negMulLog a2 + Real.negMulLog b2 := by
  rcases eq_or_lt_of_le h1 with heq | hlt
  · have hb : b = b2 := by linarith
    rw [heq, hb]
  · have ha2 : 0 < a2 := lt_of_le_of_lt ha hlt
    have hb2 : 0 < b2 := lt_of_lt_of_le ha2 h2
    have t1 := mul_log_tangent a a2 ha ha2
    have t2 := mul_log_tangent b b2 (by linarith) hb2
    have hlog : Real.log a2 ≤ Real.log b2 := Real.log_le_log ha2 h2
    have hδ : b - b2 = a2 - a := by linarith
    have hsub : (Real.log b2 + 1) * (b - b2) =
        (Real.log b2 + 1) * (a2 - a) := by rw [hδ]
    have hprod : 0 ≤ (a2 - a) * (Real.log b2 - Real.log a2) :=
      mul_nonneg (by linarith) (by linarith)
    simp only [Real.negMulLog, neg_mul]
    nlinarith [t1, t2, hsub, hprod]

lemma sum_range_split {M : Type} [AddCommMonoid M] (f : ℕ → M) (a k : ℕ)
    (h : a < k) :
    ∑ i ∈ Finset.range k, f i =
      (∑ i ∈ Finset.range a, f i + f a) + ∑ i ∈ Finset.Ico (a + 1) k, f i := by
  rw [← Finset.sum_range_succ]
  rw [Finset.range_eq_Ico]
  exact (Finset.sum_Ico_consecutive f (Nat.zero_le _) (by omega)).symm

lemma sum_Ico_split {M : Type} [AddCommMonoid M] (f : ℕ → M) (a b k : ℕ)
    (h1 : a ≤ b) (h2 : b < k) :
    ∑ i ∈ Finset.Ico a k, f i =
      (∑ i ∈ Finset.Ico a b, f i + f b) + ∑ i ∈ Finset.Ico (b + 1) k, f i := by
  rw [← Finset.sum_Ico_succ_top h1]
  exact (Finset.sum_Ico_consecutive f (by omega) (by omega)).symm

lemma sum_range_two_pts {M : Type} [AddCommMonoid M] (f : ℕ → M) (k J K : ℕ)
    (hJK : J < K) (hKk : K < k) :
    ∑ i ∈ Finset.range k, f i =
      (∑ i ∈ Finset.range J, f i + f J) +
        ((∑ i ∈ Finset.Ico (J + 1) K, f i + f K) +
          ∑ i ∈ Finset.Ico (K + 1) k, f i) := by
  rw [sum_range_split f J k (by omega),
    sum_Ico_split f (J + 1) K k (by omega) (by omega)]

lemma findGreatest_prop_of_exists (P : ℕ → Prop) [DecidablePred P] (b : ℕ)
    (h : ∃ j, j ≤ b ∧ P j) : P (Nat.findGreatest P b) := by
  obtain ⟨j0, hj0b, hj0P⟩ := h
  rcases Nat.eq_zero_or_pos (Nat.findGreatest P b) with h0 | hpos
  · have hle : j0 ≤ Nat.findGreatest P b := Nat.le_findGreatest hj0b hj0P
    have hj00 : j0 = 0 := by omega
    rw [h0, ← hj00]
    exact hj0P
  · exact Nat.findGreatest_of_ne_zero rfl (by omega)

lemma schur_fun (n : ℕ) (N : ℝ) (hNpos : 0 < N) :
    ∀ (D : ℕ) (x y : ℕ → ℕ),
      (∀ i j, i ≤ j → x j ≤ x i) →
      (∀ i j, i ≤ j → y j ≤ y i) →
      (∀ i, n ≤ i → x i = 0) →
      (∀ i, n ≤ i → y i = 0) →
      (∀ k, ∑ i ∈ Finset.range k, y i ≤ ∑ i ∈ Finset.range k, x i) →
      (∑ i ∈ Finset.range n, x i = ∑ i ∈ Finset.range n, y i) →
      (∑ i ∈ Finset.range n, ((x i - y i) + (y i - x i)) ≤ D) →
      ∑ i ∈ Finset.range n, Real.negMulLog ((x i : ℝ) / N) ≤
        ∑ i ∈ Finset.range n, Real.negMulLog ((y i : ℝ) / N) := by
  intro D
  induction D with
  | zero =>
    intro x y hx hy hxs hys hmaj htot hD
    have heq : ∀ i ∈ Finset.range n, x i = y i := by
      intro i hi
      have h0 : ∑ i ∈ Finset.range n, ((x i - y i) + (y i - x i)) = 0 :=
        Nat.le_zero.mp hD
      have h1 := Finset.sum_eq_zero_iff.mp h0 i hi
      omega
    exact le_of_eq (Finset.sum_congr rfl fun i hi => by rw [heq i hi])
  | succ m ih =>
    intro x y hx hy hxs hys hmaj htot hD
    by_cases hxy : ∀ i ∈ Finset.range n, x i = y i
    · exact le_of_eq (Finset.sum_congr rfl fun i hi => by rw [hxy i hi])
    have hexlt : ∃ i, x i < y i := by
      by_contra hno
      push_neg at hno
      apply hxy
      have hz : ∑ i ∈ Finset.range n, (x i - y i) = 0 := by
        have hsplit : ∑ i ∈ Finset.range n, ((x i - y i) + y i) =
            ∑ i ∈ Finset.range n, x i :=
          Finset.sum_congr rfl fun i _ => by
            have := hno i
            omega
        rw [Finset.sum_add_distrib] at hsplit
        omega
      intro i hi
      have h1 := Finset.sum_eq_zero_iff.mp hz i hi
      have h2 := hno i
      omega
    obtain ⟨K, hKP, hKmin0⟩ : ∃ K, x K < y K ∧ ∀ j, j < K → ¬(x j < y j) :=
      ⟨Nat.find hexlt, Nat.find_spec hexlt, fun j hj => Nat.find_min hexlt hj⟩
    have hKmin : ∀ j, j < K → y j ≤ x j := fun j hj => by
      have := hKmin0 j hj
      omega
    have hKn : K < n := by
      by_contra hc
      push_neg at hc
      have := hys K hc
      omega
    have hK1 : 1 ≤ K := by
      by_contra hc
      push_neg at hc
      have h := hmaj 1
      rw [Finset.sum_range_one, Finset.sum_range_one] at h
      have hK0 : K = 0 := by omega
      rw [hK0] at hKP
      omega
    have hJex : ∃ j, j ≤ K - 1 ∧ y j < x j := by
      by_contra hc
      push_neg at hc
      have hall : ∀ j, j < K → x j = y j := by
        intro j hj
        have h1 := hc j (by omega)
        have h2 := hKmin j hj
        omega
      have h := hmaj (K + 1)
      rw [Finset.sum_range_succ, Finset.sum_range_succ] at h
      have hKeq : ∑ i ∈ Finset.range K, x i = ∑ i ∈ Finset.range K, y i :=
        Finset.sum_congr rfl fun i hi => hall i (Finset.mem_range.mp hi)
      omega
    obtain ⟨j0, hj0b, hj0P⟩ := hJex
    obtain ⟨J, hJle, hJP, hJmax⟩ : ∃ J, J ≤ K - 1 ∧ y J < x J ∧
        ∀ t, J < t → t ≤ K - 1 → y t < x t → False :=
      ⟨Nat.findGreatest (fun j => y j < x j) (K - 1),
        Nat.findGreatest_le (K - 1),
        findGreatest_prop_of_exists (fun j => y j < x j) (K - 1)
          ⟨j0, hj0b, hj0P⟩,
        fun t h1 h2 hP => (Nat.findGreatest_is_greatest h1 h2) hP⟩
    have hJK : J < K := by omega
    have hmid : ∀ t, J < t → t < K → x t = y t := by
      intro t h1t h2t
      have hle := hKmin t h2t
      rcases Nat.lt_or_ge (y t) (x t) with hlt | hge
      · exact absurd hlt (fun hP => hJmax t h1t (by omega) hP)
      · omega
    obtain ⟨x', hx'J, hx'K, hx'o⟩ : ∃ x' : ℕ → ℕ, x' J = x J - 1 ∧
        x' K = x K + 1 ∧ ∀ i, i ≠ J → i ≠ K → x' i = x i := by
      refine ⟨Function.update (Function.update x J (x J - 1)) K (x K + 1),
        ?_, ?_, ?_⟩
      · rw [Function.update_noteq (by omega : J ≠ K), Function.update_same]
      · rw [Function.update_same]
      · intro i h1 h2
        rw [Function.update_noteq h2, Function.update_noteq h1]
    have hyJK : y K ≤ y J := hy J K (by omega)
    have hax' : ∀ i j, i ≤ j → x' j ≤ x' i := by
      have ha : ∀ t, t < K → x' K ≤ x' t := by
        intro t ht
        rcases eq_or_ne t J with rfl | htJ
        · omega
        · have hxt : x' t = x t := hx'o t htJ (by omega)
          have h1 := hKmin t ht
          have h2 := hy t K (le_of_lt ht)
          omega
      have hb : ∀ t, J < t → x' t ≤ x' J := by
        intro t ht
        rcases eq_or_ne t K with rfl | htK
        · omega
        · rcases lt_or_le t K with h1 | h1
          · have hxt : x' t = x t := hx'o t (by omega) htK
            have h2 := hmid t ht h1
            have h3 := hy J t (le_of_lt ht)
            omega
          · have hxt : x' t = x t := hx'o t (by omega) htK
            have h2 := hx K t h1
            omega
      intro i j hij
      rcases eq_or_lt_of_le hij with rfl | hij'
      · exact le_rfl
      by_cases hjJ : j = J
      · have hxi : x' i = x i := hx'o i (by omega) (by omega)
        have h2 := hx i J (by omega)
        rw [hjJ]
        omega
      by_cases hjK : j = K
      · rw [hjK]
        exact ha i (by omega)
      have hxj : x' j = x j := hx'o j hjJ hjK
      by_cases hiJ : i = J
      · rw [hiJ]
        exact hb j (by omega)
      by_cases hiK : i = K
      · have h2 := hx K j (by omega)
        rw [hiK]
        omega
      · have hxi : x' i = x i := hx'o i hiJ hiK
        have h2 := hx i j hij
        omega
    have hx's : ∀ i, n ≤ i → x' i = 0 := by
      intro i hi
      rw [hx'o i (by omega) (by omega)]
      exact hxs i hi
    have econg : ∀ (a b : ℕ), (∀ i, a ≤ i → i < b → i ≠ J ∧ i ≠ K) →
        ∑ i ∈ Finset.Ico a b, x' i = ∑ i ∈ Finset.Ico a b, x i := by
      intro a b hcond
      refine Finset.sum_congr rfl fun i hi => ?_
      have hm := Finset.mem_Ico.mp hi
      exact hx'o i (hcond i hm.1 hm.2).1 (hcond i hm.1 hm.2).2
    have econgr : ∀ b : ℕ, b ≤ J →
        ∑ i ∈ Finset.range b, x' i = ∑ i ∈ Finset.range b, x i := by
      intro b hb
      refine Finset.sum_congr rfl fun i hi => ?_
      have hm := Finset.mem_range.mp hi
      exact hx'o i (by omega) (by omega)
    have hmaj' : ∀ k, ∑ i ∈ Finset.range k, y i ≤ ∑ i ∈ Finset.range k, x' i := by
      intro k
      rcases le_or_lt k J with hkJ | hkJ
      · rw [econgr k hkJ]
        exact hmaj k
      rcases le_or_lt k K with hkK | hkK
      · have dx' := sum_range_split x' J k (by omega)
        have dy := sum_range_split y J k (by omega)
        have e1 := econgr J le_rfl
        have e2 := econg (J + 1) k (fun i h1 h2 => by omega)
        have e3 : ∑ i ∈ Finset.Ico (J + 1) k, y i =
            ∑ i ∈ Finset.Ico (J + 1) k, x i :=
          Finset.sum_congr rfl fun i hi => by
            have hm := Finset.mem_Ico.mp hi
            exact (hmid i (by omega) (by omega)).symm
        have e4 : ∑ i ∈ Finset.range J, y i ≤ ∑ i ∈ Finset.range J, x i :=
          Finset.sum_le_sum fun i hi =>
            hKmin i (by have := Finset.mem_range.mp hi; omega)
        have h := hmaj k
        have dx := sum_range_split x J k (by omega)
        omega
      · have dx' := sum_range_two_pts x' k J K hJK hkK
        have dx := sum_range_two_pts x k J K hJK hkK
        have e1 := econgr J le_rfl
        have e2 := econg (J + 1) K (fun i h1 h2 => by omega)
        have e3 := econg (K + 1) k (fun i h1 h2 => by omega)
        have h := hmaj k
        omega
    have htot' : ∑ i ∈ Finset.range n, x' i = ∑ i ∈ Finset.range n, y i := by
      have dx' := sum_range_two_pts x' n J K hJK hKn
      have dx := sum_range_two_pts x n J K hJK hKn
      have e1 := econgr J le_rfl
      have e2 := econg (J + 1) K (fun i h1 h2 => by omega)
      have e3 := econg (K + 1) n (fun i h1 h2 => by omega)
      omega
    have hD' : ∑ i ∈ Finset.range n, ((x' i - y i) + (y i - x' i)) ≤ m := by
      have df := sum_range_two_pts
        (fun i => (x' i - y i) + (y i - x' i)) n J K hJK hKn
      have dg := sum_range_two_pts
        (fun i => (x i - y i) + (y i - x i)) n J K hJK hKn
      simp only [] at df dg
      have e1 : ∑ i ∈ Finset.range J, ((x' i - y i) + (y i - x' i)) =
          ∑ i ∈ Finset.range J, ((x i - y i) + (y i - x i)) :=
        Finset.sum_congr rfl fun i hi => by
          have hm := Finset.mem_range.mp hi
          rw [hx'o i (by omega) (by omega)]
      have e2 : ∑ i ∈ Finset.Ico (J + 1) K, ((x' i - y i) + (y i - x' i)) =
          ∑ i ∈ Finset.Ico (J + 1) K, ((x i - y i) + (y i - x i)) :=
        Finset.sum_congr rfl fun i hi => by
          have hm := Finset.mem_Ico.mp hi
          rw [hx'o i (by omega) (by omega)]
      have e3 : ∑ i ∈ Finset.Ico (K + 1) n, ((x' i - y i) + (y i - x' i)) =
          ∑ i ∈ Finset.Ico (K + 1) n, ((x i - y i) + (y i - x i)) :=
        Finset.sum_congr rfl fun i hi => by
          have hm := Finset.mem_Ico.mp hi
          rw [hx'o i (by omega) (by omega)]
      omega
    have htr : ∑ i ∈ Finset.range n, Real.negMulLog ((x i : ℝ) / N) ≤
        ∑ i ∈ Finset.range n, Real.negMulLog ((x' i : ℝ) / N) := by
      have df := sum_range_two_pts
        (fun i => Real.negMulLog ((x' i : ℝ) / N)) n J K hJK hKn
      have dg := sum_range_two_pts
        (fun i => Real.negMulLog ((x i : ℝ) / N)) n J K hJK hKn
      simp only [] at df dg
      have e1 : ∑ i ∈ Finset.range J, Real.negMulLog ((x' i : ℝ) / N) =
          ∑ i ∈ Finset.range J, Real.negMulLog ((x i : ℝ) / N) :=
        Finset.sum_congr rfl fun i hi => by
          have hm := Finset.mem_range.mp hi
          rw [hx'o i (by omega) (by omega)]
      have e2 : ∑ i ∈ Finset.Ico (J + 1) K, Real.negMulLog ((x' i : ℝ) / N) =
          ∑ i ∈ Finset.Ico (J + 1) K, Real.negMulLog ((x i : ℝ) / N) :=
        Finset.sum_congr rfl fun i hi => by
          have hm := Finset.mem_Ico.mp hi
          rw [hx'o i (by omega) (by omega)]
      have e3 : ∑ i ∈ Finset.Ico (K + 1) n, Real.negMulLog ((x' i : ℝ) / N) =
          ∑ i ∈ Finset.Ico (K + 1) n, Real.negMulLog ((x i : ℝ) / N) :=
        Finset.sum_congr rfl fun i hi => by
          have hm := Finset.mem_Ico.mp hi
          rw [hx'o i (by omega) (by omega)]
      have hgap : x K + 1 ≤ x J - 1 := by
        have := hyJK
        omega
      have hnat : x K + x J = x' K + x' J := by omega
      have hstep := negMulLog_transfer ((x K : ℝ) / N) ((x' K : ℝ) / N)
          ((x' J : ℝ) / N) ((x J : ℝ) / N)
          (by positivity)
          ((div_le_div_right hNpos).mpr (by exact_mod_cast by omega))
          ((div_le_div_right hNpos).mpr (by exact_mod_cast by omega))
          ((div_le_div_right hNpos).mpr (by exact_mod_cast by omega))
          (by
            rw [div_add_div_same, div_add_div_same]
            congr 1
            exact_mod_cast hnat)
      linarith [df, dg, e1, e2, e3, hstep]
    calc ∑ i ∈ Finset.range n, Real.negMulLog ((x i : ℝ) / N)
        ≤ ∑ i ∈ Finset.range n, Real.negMulLog ((x' i : ℝ) / N) := htr
      _ ≤ ∑ i ∈ Finset.range n, Real.negMulLog ((y i : ℝ) / N) :=
          ih x' y hax' hy hx's hys hmaj' htot' hD'

lemma finset_range_sum_eq_list {M : Type} [AddCommMonoid M] (f : ℕ → M)
    (m : ℕ) : ∑ v ∈ Finset.range m, f v = ((List.range m).map f).sum := by
  induction m with
  | zero => rfl
  | succ t ih =>
    rw [Finset.sum_range_succ, List.range_succ, List.map_append,
      List.sum_append, ih]
    simp

lemma list_map_sum_eq_getD {M : Type} [AddCommMonoid M] (g : ℕ → M) :
    ∀ L : List ℕ,
      (L.map g).sum = ∑ i ∈ Finset.range L.length, g (L.getD i 0) := by
  intro L
  induction L with
  | nil => simp
  | cons a t ih =>
    rw [List.map_cons, List.sum_cons, List.length_cons, Finset.sum_range_succ']
    simp only [List.getD_cons_zero, List.getD_cons_succ]
    rw [← ih]
    exact add_comm _ _

lemma descF_anti (cs : List ℕ) : ∀ i j, i ≤ j → descF cs j ≤ descF cs i := by
  intro i j hij
  rcases lt_or_le j (desc_sort cs).length with hj | hj
  · have hi : i < (desc_sort cs).length := by omega
    rw [descF, descF, List.getD_eq_get _ _ hj, List.getD_eq_get _ _ hi]
    have hs : (desc_sort cs).Sorted (· ≥ ·) :=
      List.sorted_insertionSort (· ≥ ·) cs
    rcases eq_or_lt_of_le hij with rfl | hlt
    · exact le_rfl
    · exact hs.rel_get_of_lt hlt
  · rw [descF, List.getD_eq_default _ _ hj]
    exact Nat.zero_le _

lemma desc_counts_length (l : List ℕ) :
    (desc_sort (counts_vec l)).length = 256 := by
  rw [desc_sort, List.length_insertionSort, counts_vec, List.length_map,
    List.length_range]

lemma descF_counts_support (l : List ℕ) :
    ∀ i, 256 ≤ i → descF (counts_vec l) i = 0 := by
  intro i hi
  rw [descF]
  exact List.getD_eq_default _ _ (by rw [desc_counts_length]; exact hi)

lemma sum_g_counts_eq_descF (l : List ℕ) (g : ℕ → ℝ) :
    ∑ v ∈ Finset.range 256, g (l.count v) =
      ∑ i ∈ Finset.range 256, g (descF (counts_vec l) i) := by
  calc ∑ v ∈ Finset.range 256, g (l.count v)
      = ((List.range 256).map fun v => g (l.count v)).sum :=
        finset_range_sum_eq_list (fun v => g (l.count v)) 256
    _ = ((counts_vec l).map g).sum := by
        rw [counts_vec, List.map_map]
        rfl
    _ = ((desc_sort (counts_vec l)).map g).sum :=
        (List.Perm.sum_eq (List.Perm.map g
          (List.perm_insertionSort (· ≥ ·) (counts_vec l)))).symm
    _ = ∑ i ∈ Finset.range (desc_sort (counts_vec l)).length,
          g ((desc_sort (counts_vec l)).getD i 0) :=
        list_map_sum_eq_getD g (desc_sort (counts_vec l))
    _ = ∑ i ∈ Finset.range 256, g (descF (counts_vec l) i) := by
        simp only [descF]
        rw [desc_counts_length]

lemma descF_counts_total (l : List ℕ) (hb : ∀ b ∈ l, b < 256) :
    ∑ i ∈ Finset.range 256, descF (counts_vec l) i = l.length := by
  calc ∑ i ∈ Finset.range 256, descF (counts_vec l) i
      = ∑ i ∈ Finset.range (desc_sort (counts_vec l)).length,
          (desc_sort (counts_vec l)).getD i 0 := by
        simp only [descF]
        rw [desc_counts_length]
    _ = ((desc_sort (counts_vec l)).map fun t => t).sum :=
        (list_map_sum_eq_getD (fun t => t) (desc_sort (counts_vec l))).symm
    _ = (desc_sort (counts_vec l)).sum := by rw [List.map_id']
    _ = (counts_vec l).sum :=
        List.Perm.sum_eq (List.perm_insertionSort (· ≥ ·) (counts_vec l))
    _ = l.length := by
        rw [counts_vec, List.range_eq_range']
        exact range_count_sum_all l hb

lemma shannon_ent_eq_descF_sum (l : List ℕ) (hne : l ≠ [])
    (hb : ∀ b ∈ l, b < 256) :
    shannon_ent l = (∑ i ∈ Finset.range 256,
      Real.negMulLog ((descF (counts_vec l) i : ℝ) / (l.length : ℝ))) /
        Real.log 256 := by
  have h1 : shannon_ent l = (∑ v ∈ l.toFinset,
      Real.negMulLog ((l.count v : ℝ) / (l.length : ℝ))) / Real.log 256 := by
    rw [shannon_ent, ← Finset.sum_div, ← neg_div, ← Finset.sum_neg_distrib]
    congr 1
    exact Finset.sum_congr rfl fun v _ => by
      simp [Real.negMulLog_eq_neg]
  have h2 : ∑ v ∈ l.toFinset,
      Real.negMulLog ((l.count v : ℝ) / (l.length : ℝ)) =
      ∑ v ∈ Finset.range 256,
        Real.negMulLog ((l.count v : ℝ) / (l.length : ℝ)) := by
    apply Finset.sum_subset
    · intro v hv
      exact Finset.mem_range.mpr (hb v (List.mem_toFinset.mp hv))
    · intro v _ hnv
      have hc0 : l.count v = 0 := by
        rw [List.count_eq_zero]
        intro hmem
        exact hnv (List.mem_toFinset.mpr hmem)
      rw [hc0]
      simp
  rw [h1, h2, sum_g_counts_eq_descF l
    (fun c => Real.negMulLog ((c : ℝ) / (l.length : ℝ)))]

/-- C8: `shannon_ent` is Schur-concave in the byte-value count distribution:
if two byte sequences have the same length and the count distribution of the
second majorizes (is more skewed than) that of the first, the more uniform
first sequence's entropy is at least the second's. -/
theorem C8_shannon_ent_majorization (l1 l2 : List ℕ)
    (hlen : l1.length = l2.length) (hne : l1 ≠ [])
    (hb1 : ∀ b ∈ l1, b < 256) (hb2 : ∀ b ∈ l2, b < 256)
    (hmaj : majorizes (counts_vec l2) (counts_vec l1)) :
    shannon_ent l2 ≤ shannon_ent l1 := by
  have hne2 : l2 ≠ [] := by
    intro h
    rw [h] at hlen
    exact hne (List.length_eq_zero.mp hlen)
  have hlpos : 0 < l1.length := List.length_pos.mpr hne
  have hNpos : (0 : ℝ) < (l1.length : ℝ) := by exact_mod_cast hlpos
  have hlog : (0 : ℝ) < Real.log 256 := Real.log_pos (by norm_num)
  have hbr1 := shannon_ent_eq_descF_sum l1 hne hb1
  have hbr2 := shannon_ent_eq_descF_sum l2 hne2 hb2
  have htot : ∑ i ∈ Finset.range 256, descF (counts_vec l2) i =
      ∑ i ∈ Finset.range 256, descF (counts_vec l1) i := by
    rw [descF_counts_total l2 hb2, descF_counts_total l1 hb1, hlen]
  have hkey := schur_fun 256 (l1.length : ℝ) hNpos
    (∑ i ∈ Finset.range 256,
      ((descF (counts_vec l2) i - descF (counts_vec l1) i) +
        (descF (counts_vec l1) i - descF (counts_vec l2) i)))
    (descF (counts_vec l2)) (descF (counts_vec l1))
    (descF_anti (counts_vec l2)) (descF_anti (counts_vec l1))
    (descF_counts_support l2) (descF_counts_support l1)
    (fun k => hmaj k) htot le_rfl
  rw [hbr1, hbr2, ← hlen]
  exact (div_le_div_right hlog).mpr hkey

set_option maxRecDepth 4000 in
/-- Witness for C8: the streams `[1, 0]` and `[0, 1]` have identical count
distributions (each majorizes the other), so the theorem applies with
equality. -/
theorem C8_shannon_ent_majorization_witness :
    ((([1, 0] : List ℕ).length = ([0, 1] : List ℕ).length ∧
      ([1, 0] : List ℕ) ≠ [] ∧
      (∀ b ∈ ([1, 0] : List ℕ), b < 256) ∧
      (∀ b ∈ ([0, 1] : List ℕ), b < 256) ∧
      majorizes (counts_vec [0, 1]) (counts_vec [1, 0])) ∧
    shannon_ent [0, 1] ≤ shannon_ent [1, 0]) := by
  have hcv : counts_vec [0, 1] = counts_vec [1, 0] := by decide
  have hm : majorizes (counts_vec [0, 1]) (counts_vec [1, 0]) := by
    rw [hcv]
    exact fun k => le_rfl
  exact ⟨⟨rfl, by simp, by decide, by decide, hm⟩,
    C8_shannon_ent_majorization [1, 0] [0, 1] rfl (by simp) (by decide)
      (by decide) hm⟩
